import Mathlib

/-!
Verification of the torrust-tracker announce-response encoding
(src/servers/http/v1/responses/announce.rs) and of the swarm-repository
contract described in the specification.

Byte strings are modelled as lists of natural numbers (one per byte).
The bip_bencode dictionary is backed by an ordered map, so dictionary
entries are kept sorted by key in lexicographic byte order; `benMap`
models the `ben_map!` macro (insert all pairs into the ordered map) and
`encode` models `BencodeMut::encode`.
-/

namespace Torrust

/-- A byte string: one natural number per byte. -/
abbrev Bytes := List Nat

/-- ASCII bytes of a Lean string literal (all keys used here are ASCII). -/
def strBytes (s : String) : Bytes := s.toList.map Char.toNat

/-- Lexicographic byte order on keys, the order used by the bencode
dictionary (shorter key first when one is a proper initial segment). -/
def lexLt : Bytes → Bytes → Bool
  | [], [] => false
  | [], _ :: _ => true
  | _ :: _, [] => false
  | a :: as, b :: bs => if a < b then true else if b < a then false else lexLt as bs

/-- Bencode values, mirroring `BencodeMut`: integers, byte strings,
lists and dictionaries (a dictionary holds its entries in key order). -/
inductive Bencode where
  | int : Int → Bencode
  | bytes : Bytes → Bencode
  | list : List Bencode → Bencode
  | dict : List (Bytes × Bencode) → Bencode

/-- Insert one key/value pair into a key-sorted entry list. -/
def insertSorted (p : Bytes × Bencode) : List (Bytes × Bencode) → List (Bytes × Bencode)
  | [] => [p]
  | q :: qs => if lexLt p.1 q.1 then p :: q :: qs else q :: insertSorted p qs

/-- Sort an entry list by key (insertion sort). -/
def sortKvs : List (Bytes × Bencode) → List (Bytes × Bencode)
  | [] => []
  | p :: ps => insertSorted p (sortKvs ps)

/-- The `ben_map!` macro: build the dictionary from the written pairs;
the backing ordered map stores them sorted by key. -/
def benMap (kvs : List (Bytes × Bencode)) : Bencode := .dict (sortKvs kvs)

/-- Decimal digits of a natural number, as ASCII bytes. -/
def decimalDigits (n : Nat) : Bytes := (Nat.toDigits 10 n).map Char.toNat

/-- Decimal rendering of a bencode integer (with a minus sign when negative). -/
def intLit (i : Int) : Bytes :=
  if i < 0 then 45 :: decimalDigits i.natAbs else decimalDigits i.natAbs

/-- Bencode byte-string encoding: decimal length, a colon, the bytes. -/
def bstrBytes (bs : Bytes) : Bytes := decimalDigits bs.length ++ 58 :: bs

mutual

/-- The method `BencodeMut::encode`: serialize a bencode value to bytes
(105 = 'i', 101 = 'e', 108 = 'l', 100 = 'd'). -/
def encode : Bencode → Bytes
  | .int i => 105 :: intLit i ++ [101]
  | .bytes bs => bstrBytes bs
  | .list xs => 108 :: encodeItems xs ++ [101]
  | .dict kvs => 100 :: encodeEntries kvs ++ [101]

/-- Serialize the items of a bencode list, in order. -/
def encodeItems : List Bencode → Bytes
  | [] => []
  | x :: xs => encode x ++ encodeItems xs

/-- Serialize the entries of a bencode dictionary, in stored (key) order. -/
def encodeEntries : List (Bytes × Bencode) → Bytes
  | [] => []
  | (k, v) :: kvs => bstrBytes k ++ encode v ++ encodeEntries kvs

end

/-- Rust `std::net::IpAddr`: an IPv4 address (four octets) or an IPv6 address
(eight 16-bit segments), as built by `Ipv4Addr::new` / `Ipv6Addr::new`. -/
inductive IpAddr where
  | v4 (a b c d : Nat)
  | v6 (s0 s1 s2 s3 s4 s5 s6 s7 : Nat)
deriving DecidableEq

/-- Rust `u16::to_be_bytes`: high byte then low byte. -/
def u16BeBytes (n : Nat) : Bytes := [n / 256 % 256, n % 256]

/-- Model of `std::io::Write::write_all` for the `Vec<u8>` writer used by the
encoder: appends the buffer and never fails. -/
def writeAll (buf : Bytes) (acc : Bytes) : Except String Bytes := .ok (acc ++ buf)

/-- The compact peer: ip and port (announce.rs, `CompactPeer`). -/
structure CompactPeer where
  ip : IpAddr
  port : Nat
deriving DecidableEq

/-- The method `CompactPeer::bytes`: big-endian address bytes followed by the
big-endian port, written through the `Vec<u8>` writer. -/
def CompactPeer.bytes (p : CompactPeer) : Except String Bytes := do
  let bytes : Bytes := []
  let bytes ←
    match p.ip with
    | .v4 a b c d => writeAll [a % 256, b % 256, c % 256, d % 256] bytes
    | .v6 s0 s1 s2 s3 s4 s5 s6 s7 =>
        writeAll (u16BeBytes s0 ++ u16BeBytes s1 ++ u16BeBytes s2 ++ u16BeBytes s3 ++
          u16BeBytes s4 ++ u16BeBytes s5 ++ u16BeBytes s6 ++ u16BeBytes s7) bytes
  let bytes ← writeAll (u16BeBytes p.port) bytes
  pure bytes

/-- The compact announce response (announce.rs, `Compact`). -/
structure Compact where
  interval : Nat
  interval_min : Nat
  complete : Nat
  incomplete : Nat
  peers : List CompactPeer
deriving DecidableEq

/-- The loop body of `Compact::peers_v4_bytes`: append the bytes of every
IPv4 peer, skip IPv6 peers. -/
def peersV4Loop : List CompactPeer → Bytes → Except String Bytes
  | [], bytes => .ok bytes
  | p :: ps, bytes =>
    match p.ip with
    | .v4 _ _ _ _ => do
        let peerBytes ← p.bytes
        let bytes ← writeAll peerBytes bytes
        peersV4Loop ps bytes
    | .v6 _ _ _ _ _ _ _ _ => peersV4Loop ps bytes

/-- The loop body of `Compact::peers_v6_bytes`: append the bytes of every
IPv6 peer, skip IPv4 peers. -/
def peersV6Loop : List CompactPeer → Bytes → Except String Bytes
  | [], bytes => .ok bytes
  | p :: ps, bytes =>
    match p.ip with
    | .v6 _ _ _ _ _ _ _ _ => do
        let peerBytes ← p.bytes
        let bytes ← writeAll peerBytes bytes
        peersV6Loop ps bytes
    | .v4 _ _ _ _ => peersV6Loop ps bytes

/-- The method `Compact::peers_v4_bytes`. -/
def Compact.peersV4Bytes (c : Compact) : Except String Bytes := peersV4Loop c.peers []

/-- The method `Compact::peers_v6_bytes`. -/
def Compact.peersV6Bytes (c : Compact) : Except String Bytes := peersV6Loop c.peers []

/-- The method `Compact::body`: bencode the stats and the two compact peer strings. -/
def Compact.body (c : Compact) : Except String Bytes := do
  let v4 ← c.peersV4Bytes
  let v6 ← c.peersV6Bytes
  pure (encode (benMap [
    (strBytes "complete", .int (Int.ofNat c.complete)),
    (strBytes "incomplete", .int (Int.ofNat c.incomplete)),
    (strBytes "interval", .int (Int.ofNat c.interval)),
    (strBytes "min interval", .int (Int.ofNat c.interval_min)),
    (strBytes "peers", .bytes v4),
    (strBytes "peers6", .bytes v6)]))

/-- Dotted-decimal display of an IPv4 address (Rust `Ipv4Addr` Display). -/
def ipv4String (a b c d : Nat) : String :=
  toString a ++ "." ++ toString b ++ "." ++ toString c ++ "." ++ toString d

/-- Lowercase hex rendering of one 16-bit IPv6 segment, no leading zeros. -/
def hexSeg (n : Nat) : String := String.mk (Nat.toDigits 16 n)

/-- Colon-joined hex segments. -/
def segsJoin (segs : List Nat) : String := String.intercalate ":" (segs.map hexSeg)

/-- Scanner state for locating the longest run of zero segments. -/
structure RunState where
  idx : Nat
  curStart : Nat
  curLen : Nat
  bestStart : Nat
  bestLen : Nat
deriving DecidableEq

/-- One step of the zero-run scan (the first longest run is kept). -/
def runStep (st : RunState) (s : Nat) : RunState :=
  if s = 0 then
    let curStart := if st.curLen = 0 then st.idx else st.curStart
    let curLen := st.curLen + 1
    if curLen > st.bestLen then
      ⟨st.idx + 1, curStart, curLen, curStart, curLen⟩
    else
      ⟨st.idx + 1, curStart, curLen, st.bestStart, st.bestLen⟩
  else
    ⟨st.idx + 1, st.curStart, 0, st.bestStart, st.bestLen⟩

/-- Start and length of the first longest run of zero segments. -/
def bestZeroRun (segs : List Nat) : Nat × Nat :=
  let st := segs.foldl runStep ⟨0, 0, 0, 0, 0⟩
  (st.bestStart, st.bestLen)

/-- Display of an IPv6 address (Rust `Ipv6Addr` Display): the unspecified
and loopback addresses, IPv4-mapped addresses, and otherwise zero-run
compression when the longest zero run spans at least two segments. -/
def ipv6String (s0 s1 s2 s3 s4 s5 s6 s7 : Nat) : String :=
  let segs := [s0, s1, s2, s3, s4, s5, s6, s7]
  if segs = [0, 0, 0, 0, 0, 0, 0, 0] then "::"
  else if segs = [0, 0, 0, 0, 0, 0, 0, 1] then "::1"
  else if s0 = 0 ∧ s1 = 0 ∧ s2 = 0 ∧ s3 = 0 ∧ s4 = 0 ∧ s5 = 65535 then
    "::ffff:" ++ ipv4String (s6 / 256) (s6 % 256) (s7 / 256) (s7 % 256)
  else
    let run := bestZeroRun segs
    if run.2 > 1 then
      segsJoin (segs.take run.1) ++ "::" ++ segsJoin (segs.drop (run.1 + run.2))
    else segsJoin segs

/-- The `IpAddr` Display text (`self.ip.to_string()`), as ASCII bytes. -/
def IpAddr.toStringBytes : IpAddr → Bytes
  | .v4 a b c d => strBytes (ipv4String a b c d)
  | .v6 s0 s1 s2 s3 s4 s5 s6 s7 => strBytes (ipv6String s0 s1 s2 s3 s4 s5 s6 s7)

/-- The non-compact response peer (announce.rs, `Peer`). -/
structure Peer where
  peer_id : Bytes
  ip : IpAddr
  port : Nat
deriving DecidableEq

/-- The method `Peer::ben_map`: a dictionary with the peer id, the displayed ip and
the port (the ordered map stores the keys lexicographically). -/
def Peer.ben_map (p : Peer) : Bencode :=
  benMap [
    (strBytes "peer id", .bytes p.peer_id),
    (strBytes "ip", .bytes p.ip.toStringBytes),
    (strBytes "port", .int (Int.ofNat p.port))]

/-- The non-compact announce response (announce.rs, `NonCompact`). -/
structure NonCompact where
  interval : Nat
  interval_min : Nat
  complete : Nat
  incomplete : Nat
  peers : List Peer
deriving DecidableEq

/-- The method `NonCompact::body`: build the peer list, then bencode the stats and
the list.  The return type is plain bytes: this encoder has no failure
path (its writer is an in-memory `Vec<u8>`). -/
def NonCompact.body (nc : NonCompact) : Bytes :=
  let peersList := Bencode.list (nc.peers.map Peer.ben_map)
  encode (benMap [
    (strBytes "complete", .int (Int.ofNat nc.complete)),
    (strBytes "incomplete", .int (Int.ofNat nc.incomplete)),
    (strBytes "interval", .int (Int.ofNat nc.interval)),
    (strBytes "min interval", .int (Int.ofNat nc.interval_min)),
    (strBytes "peers", peersList)])

/-- An HTTP response: status code and body bytes. -/
structure Response where
  status : Nat
  body : Bytes
deriving DecidableEq

/-- The `impl IntoResponse for NonCompact`: always a 200 with the body bytes. -/
def NonCompact.into_response (nc : NonCompact) : Response := ⟨200, nc.body⟩

/-- Modelled from the spec: `responses::error::Error` is not under src/;
the spec says a serialization failure is converted into a bencoded
`failure reason` dictionary rather than a crash. -/
structure ErrorResponse where
  failure_reason : String

/-- Modelled from the spec: the error response body is the bencoded
`failure reason` dictionary. -/
def ErrorResponse.into_response (e : ErrorResponse) : Response :=
  ⟨200, encode (benMap [(strBytes "failure reason", .bytes (strBytes e.failure_reason))])⟩

/-- The error `CompactSerializationError::CannotWriteBytes` (announce.rs): carries
the caller location and the inner error text. -/
structure CompactSerializationError where
  location : String
  inner_error : String

/-- The Display text of `CannotWriteBytes`. -/
def CompactSerializationError.message (e : CompactSerializationError) : String :=
  "cannot write bytes: " ++ e.inner_error ++ " in " ++ e.location

/-- The conversion `From<CompactSerializationError> for responses::error::Error`. -/
def errorFromCompact (e : CompactSerializationError) : ErrorResponse :=
  ⟨e.message⟩

/-- The match in `impl IntoResponse for Compact`, factored over the
result of `Compact::body`: a 200 on success, the failure-reason error
response on a serialization error. -/
def compactResponseOf (location : String) : Except String Bytes → Response
  | .ok bytes => ⟨200, bytes⟩
  | .error err => (errorFromCompact ⟨location, err⟩).into_response

/-- The `impl IntoResponse for Compact` (the caller location is the
`Location::caller()` value captured in the error branch). -/
def Compact.into_response (c : Compact) (location : String) : Response :=
  compactResponseOf location c.body

/-- Modelled from the spec: announce event of a peer record (spec section 3);
the repository sources for the swarm entry are not under src/. -/
inductive AnnounceEvent where
  | started
  | completed
  | stopped
  | none
deriving DecidableEq

/-- Modelled from the spec: `PeerRecord` (spec section 3): the announced
state of one peer, replaced wholesale on every announce. -/
structure PeerRecord where
  peer_id : Bytes
  ip_address : IpAddr
  port : Nat
  bytes_uploaded : Nat
  bytes_downloaded : Nat
  bytes_left : Nat
  event : AnnounceEvent
  last_updated_at : Nat
deriving DecidableEq

/-- The predicate `is_seeder() = (bytes_left == 0)` (spec section 4.1). -/
def PeerRecord.is_seeder (r : PeerRecord) : Bool := r.bytes_left = 0

/-- Modelled from the spec: `SwarmEntry` (spec sections 3, 4.2): the peer
records of one info-hash, keyed by peer id, plus the completed counter;
the entry sources are not under src/ (only the benchmark caller is).
The seeder/leecher counters are derived from the peer set, which the
spec explicitly allows. -/
structure Entry where
  peers : List PeerRecord
  completed_count : Nat
deriving DecidableEq

/-- The empty swarm entry. -/
def emptyEntry : Entry := ⟨[], 0⟩

/-- Derived seeder count: peers with nothing left to download. -/
def Entry.seeders (e : Entry) : Nat := (e.peers.filter fun r => r.is_seeder).length

/-- Derived leecher count: peers still downloading. -/
def Entry.leechers (e : Entry) : Nat := (e.peers.filter fun r => !r.is_seeder).length

/-- Insert or replace a record, keyed by its peer id. -/
def upsertList (l : List PeerRecord) (r : PeerRecord) : List PeerRecord :=
  if l.any fun p => decide (p.peer_id = r.peer_id) then
    l.map fun p => if p.peer_id = r.peer_id then r else p
  else
    l ++ [r]

/-- Modelled from the spec: `SwarmEntry.upsert_peer` (spec section 4.2):
insert or replace the record; when the event is completed and no record
with that peer id previously was a seeder, increment the completed
counter. -/
def Entry.upsert_peer (e : Entry) (r : PeerRecord) : Entry :=
  let previouslySeeder := e.peers.any fun p => decide (p.peer_id = r.peer_id) && p.is_seeder
  let completed :=
    if decide (r.event = AnnounceEvent.completed) && !previouslySeeder then
      e.completed_count + 1
    else e.completed_count
  ⟨upsertList e.peers r, completed⟩

/-- Modelled from the spec: `SwarmEntry.remove_peer` (spec section 4.2):
drop the record if present; report whether something was removed. -/
def Entry.remove_peer (e : Entry) (pid : Bytes) : Entry × Bool :=
  let remaining := e.peers.filter fun p => !decide (p.peer_id = pid)
  (⟨remaining, e.completed_count⟩, decide (remaining.length < e.peers.length))

/-- Modelled from the spec: `SwarmEntry.purge_stale` (spec section 4.2):
remove the records whose last update is older than the threshold; the
completed counter is untouched. -/
def Entry.purge_stale (e : Entry) (now ttl : Nat) : Entry × Nat :=
  let fresh := e.peers.filter fun p => !decide (p.last_updated_at < now - ttl)
  (⟨fresh, e.completed_count⟩, e.peers.length - fresh.length)

/-- Modelled from the spec: a swarm snapshot (spec section 4.2): the full
peer list plus the derived statistics. -/
structure SwarmSnapshot where
  peers : List PeerRecord
  seeders : Nat
  leechers : Nat
  completed_count : Nat
deriving DecidableEq

/-- The operation `SwarmEntry.snapshot` (spec section 4.2). -/
def Entry.snapshot (e : Entry) : SwarmSnapshot :=
  ⟨e.peers, e.seeders, e.leechers, e.completed_count⟩

/-- Modelled from the spec: `select_peers` (spec section 4.4): at most
`limit` peers, the requester excluded; the sources of the peer selection
are not under src/. -/
def select_peers (s : SwarmSnapshot) (requester_id : Bytes) (limit : Nat) : List PeerRecord :=
  (s.peers.filter fun p => !decide (p.peer_id = requester_id)).take limit

/-- Look a key up in an association list. -/
def assocGet {α : Type} (m : List (Bytes × α)) (k : Bytes) : Option α :=
  match m.find? fun kv => decide (kv.1 = k) with
  | some kv => some kv.2
  | Option.none => Option.none

/-- Replace the value at a key, or append the binding if absent. -/
def assocSet {α : Type} : List (Bytes × α) → Bytes → α → List (Bytes × α)
  | [], k, v => [(k, v)]
  | kv :: m, k, v => if kv.1 = k then (k, v) :: m else kv :: assocSet m k v

/-- Modelled from the spec: a logical repository operation (spec
section 4.3), replayed sequentially against each strategy. -/
inductive RepoOp where
  | upsert (ih : Bytes) (r : PeerRecord)
  | remove (ih : Bytes) (pid : Bytes)
  | sweep (now ttl : Nat)
deriving DecidableEq

/-- Modelled from the spec: the coarse strategy (spec section 4.3 a): a
single lock over the whole map, entries stored plainly. -/
structure CoarseRepo where
  torrents : List (Bytes × Entry)
deriving DecidableEq

/-- The lock flavor of the inner per-entry lock: preemptive-blocking
(std mutex) or cooperative-yielding (tokio mutex). -/
inductive LockKind where
  | preemptive
  | cooperative
deriving DecidableEq

/-- An entry guarded by its own inner lock; the bookkeeping counts the
acquisitions and never touches the data. -/
structure LockedEntry where
  kind : LockKind
  acquisitions : Nat
  entry : Entry
deriving DecidableEq

/-- Modelled from the spec: the fine-grained strategies (spec
section 4.3 b and c): the outer map guards structure only; each entry
owns an inner lock of the chosen flavor. -/
structure FineRepo where
  kind : LockKind
  torrents : List (Bytes × LockedEntry)
deriving DecidableEq

/-- Apply one logical operation under the coarse strategy. -/
def CoarseRepo.apply (repo : CoarseRepo) : RepoOp → CoarseRepo
  | .upsert ih r =>
    let e := (assocGet repo.torrents ih).getD emptyEntry
    ⟨assocSet repo.torrents ih (e.upsert_peer r)⟩
  | .remove ih pid =>
    match assocGet repo.torrents ih with
    | some e => ⟨assocSet repo.torrents ih (e.remove_peer pid).1⟩
    | Option.none => repo
  | .sweep now ttl =>
    ⟨(repo.torrents.map fun kv => (kv.1, (kv.2.purge_stale now ttl).1)).filter
      fun kv => !kv.2.peers.isEmpty⟩

/-- Apply one logical operation under a fine-grained strategy: the same
entry logic, with the inner lock acquired (and its counter bumped) for
every entry mutation. -/
def FineRepo.apply (repo : FineRepo) : RepoOp → FineRepo
  | .upsert ih r =>
    match assocGet repo.torrents ih with
    | some le =>
        ⟨repo.kind, assocSet repo.torrents ih ⟨le.kind, le.acquisitions + 1, le.entry.upsert_peer r⟩⟩
    | Option.none =>
        ⟨repo.kind, assocSet repo.torrents ih ⟨repo.kind, 1, emptyEntry.upsert_peer r⟩⟩
  | .remove ih pid =>
    match assocGet repo.torrents ih with
    | some le =>
        ⟨repo.kind, assocSet repo.torrents ih ⟨le.kind, le.acquisitions + 1, (le.entry.remove_peer pid).1⟩⟩
    | Option.none => repo
  | .sweep now ttl =>
    ⟨repo.kind,
      (repo.torrents.map fun kv =>
        (kv.1, ⟨kv.2.kind, kv.2.acquisitions + 1, (kv.2.entry.purge_stale now ttl).1⟩)).filter
        fun kv => !kv.2.entry.peers.isEmpty⟩

/-- The data visible in a fine-grained repository, locks stripped. -/
def FineRepo.view (repo : FineRepo) : List (Bytes × Entry) :=
  repo.torrents.map fun kv => (kv.1, kv.2.entry)

/-- The three substitutable concurrency strategies (spec section 4.3). -/
inductive Strategy where
  | coarse
  | fineStd
  | fineTokio
deriving DecidableEq

/-- Replay a sequence of logical operations sequentially against a
strategy; the result is the final info-hash to entry mapping. -/
def replay : Strategy → List RepoOp → List (Bytes × Entry)
  | .coarse, ops => (ops.foldl CoarseRepo.apply ⟨[]⟩).torrents
  | .fineStd, ops => (ops.foldl FineRepo.apply ⟨.preemptive, []⟩).view
  | .fineTokio, ops => (ops.foldl FineRepo.apply ⟨.cooperative, []⟩).view

/-- An entry-level operation (spec section 4.2), for the counter
invariants. -/
inductive EntryOp where
  | upsert (r : PeerRecord)
  | remove (pid : Bytes)
  | purge (now ttl : Nat)
deriving DecidableEq

/-- Apply one entry-level operation. -/
def applyEntryOp (e : Entry) : EntryOp → Entry
  | .upsert r => e.upsert_peer r
  | .remove pid => (e.remove_peer pid).1
  | .purge now ttl => (e.purge_stale now ttl).1

/-- Apply a sequence of entry-level operations. -/
def applyEntryOps (e : Entry) (ops : List EntryOp) : Entry := ops.foldl applyEntryOp e

/-- Whether an address is IPv4. -/
def IpAddr.isV4 : IpAddr → Bool
  | .v4 _ _ _ _ => true
  | .v6 _ _ _ _ _ _ _ _ => false

/-- The wire chunk of one compact peer, as the spec words it: 4 bytes of
big-endian IPv4 address, or 16 bytes of big-endian IPv6 address, followed
by 2 bytes of big-endian port. -/
def compactChunk (p : CompactPeer) : Bytes :=
  match p.ip with
  | .v4 a b c d => [a % 256, b % 256, c % 256, d % 256] ++ u16BeBytes p.port
  | .v6 s0 s1 s2 s3 s4 s5 s6 s7 =>
      (u16BeBytes s0 ++ u16BeBytes s1 ++ u16BeBytes s2 ++ u16BeBytes s3 ++
        u16BeBytes s4 ++ u16BeBytes s5 ++ u16BeBytes s6 ++ u16BeBytes s7) ++ u16BeBytes p.port

/-- The keys of a bencode dictionary, in stored order. -/
def dictKeys : Bencode → List Bytes
  | .dict kvs => kvs.map Prod.fst
  | _ => []

/-- Whether a key list is strictly increasing in lexicographic byte order. -/
def keysOrdered : List Bytes → Bool
  | [] => true
  | [_] => true
  | a :: b :: rest => lexLt a b && keysOrdered (b :: rest)

/-- A concrete peer record used by the witness theorems. -/
def sampleRecordA : PeerRecord :=
  ⟨[1], .v4 1 2 3 4, 10, 0, 0, 0, .none, 5⟩

/-- A second concrete peer record used by the witness theorems. -/
def sampleRecordB : PeerRecord :=
  ⟨[2], .v4 5 6 7 8, 11, 0, 0, 7, .started, 6⟩

/-- The bytes of a compact peer are its compact wire chunk, and the write
never fails. -/
theorem CompactPeer.bytes_eq_chunk (p : CompactPeer) : p.bytes = Except.ok (compactChunk p) := by
  obtain ⟨ip, port⟩ := p
  cases ip <;> rfl

/-- The IPv4 loop collects exactly the chunks of the IPv4 peers, in order. -/
theorem peersV4Loop_eq (ps : List CompactPeer) (acc : Bytes) :
    peersV4Loop ps acc
      = Except.ok (acc ++ ((ps.filter fun p => p.ip.isV4).map compactChunk).flatten) := by
  induction ps generalizing acc with
  | nil => simp [peersV4Loop]
  | cons p ps ih =>
    obtain ⟨ip, port⟩ := p
    cases ip with
    | v4 a b c d =>
      simp [peersV4Loop, CompactPeer.bytes_eq_chunk, writeAll, IpAddr.isV4, ih,
        Bind.bind, Except.bind, List.append_assoc]
    | v6 s0 s1 s2 s3 s4 s5 s6 s7 =>
      simp [peersV4Loop, IpAddr.isV4, ih]

/-- The IPv6 loop collects exactly the chunks of the IPv6 peers, in order. -/
theorem peersV6Loop_eq (ps : List CompactPeer) (acc : Bytes) :
    peersV6Loop ps acc
      = Except.ok (acc ++ ((ps.filter fun p => !p.ip.isV4).map compactChunk).flatten) := by
  induction ps generalizing acc with
  | nil => simp [peersV6Loop]
  | cons p ps ih =>
    obtain ⟨ip, port⟩ := p
    cases ip with
    | v4 a b c d =>
      simp [peersV6Loop, IpAddr.isV4, ih]
    | v6 s0 s1 s2 s3 s4 s5 s6 s7 =>
      simp [peersV6Loop, CompactPeer.bytes_eq_chunk, writeAll, IpAddr.isV4, ih,
        Bind.bind, Except.bind, List.append_assoc]

/-- Claim C1: for the swarm of one IPv4 peer 105.105.105.105:28784 and one
IPv6 peer 6969:6969:6969:6969:6969:6969:6969:6969:28784, the compact body
with interval 111, min interval 222, complete 333 and incomplete 444 is
exactly the byte sequence
d8:completei333e10:incompletei444e8:intervali111e12:min intervali222e5:peers6:iiiipp6:peers618:iiiiiiiiiiiiiiiippe. -/
theorem claim_c1_compact_body_test_vector :
    Compact.body ⟨111, 222, 333, 444,
      [⟨.v4 105 105 105 105, 28784⟩,
       ⟨.v6 26985 26985 26985 26985 26985 26985 26985 26985, 28784⟩]⟩
      = Except.ok (strBytes "d8:completei333e10:incompletei444e8:intervali111e12:min intervali222e5:peers6:iiiipp6:peers618:iiiiiiiiiiiiiiiippe") := rfl

/-- Claim C2: for every compact peer list, the peers value concatenates,
over exactly the IPv4 peers, 4 address bytes plus 2 port bytes (6 bytes
per peer), and the peers6 value concatenates, over exactly the IPv6
peers, 16 address bytes plus 2 port bytes (18 bytes per peer); neither
family contributes to the other byte string. -/
theorem claim_c2_compact_peers_partition :
    ∀ c : Compact,
      c.peersV4Bytes = Except.ok (((c.peers.filter fun p => p.ip.isV4).map compactChunk).flatten)
      ∧ c.peersV6Bytes = Except.ok (((c.peers.filter fun p => !p.ip.isV4).map compactChunk).flatten)
      ∧ (∀ a b c d port, (compactChunk ⟨.v4 a b c d, port⟩).length = 6)
      ∧ (∀ s0 s1 s2 s3 s4 s5 s6 s7 port,
          (compactChunk ⟨.v6 s0 s1 s2 s3 s4 s5 s6 s7, port⟩).length = 18) := by
  intro c
  refine ⟨?_, ?_, ?_, ?_⟩
  · simpa [Compact.peersV4Bytes] using peersV4Loop_eq c.peers []
  · simpa [Compact.peersV6Bytes] using peersV6Loop_eq c.peers []
  · intro a b c d port; rfl
  · intro s0 s1 s2 s3 s4 s5 s6 s7 port; rfl

/-- Claim C3: for every non-compact response value, the body is the
bencoding of a dictionary whose keys appear in the order complete,
incomplete, interval, min interval, peers (an order that is strictly
lexicographic), where peers is a bencoded list with one dictionary per
peer holding exactly the keys ip, peer id, port. -/
theorem claim_c3_non_compact_dict_shape :
    ∀ nc : NonCompact,
      nc.body = encode (Bencode.dict [
        (strBytes "complete", .int (Int.ofNat nc.complete)),
        (strBytes "incomplete", .int (Int.ofNat nc.incomplete)),
        (strBytes "interval", .int (Int.ofNat nc.interval)),
        (strBytes "min interval", .int (Int.ofNat nc.interval_min)),
        (strBytes "peers", .list (nc.peers.map Peer.ben_map))])
      ∧ keysOrdered [strBytes "complete", strBytes "incomplete", strBytes "interval",
          strBytes "min interval", strBytes "peers"] = true
      ∧ ∀ p : Peer, dictKeys (Peer.ben_map p)
          = [strBytes "ip", strBytes "peer id", strBytes "port"] := by
  intro nc
  exact ⟨rfl, rfl, fun p => rfl⟩

/-- Claim C4: the non-compact encoder never fails (its byte writer is an
in-memory vector that always succeeds): the response is always a 200
carrying exactly the encoded bytes, a complete bencoded dictionary
(first byte d, last byte e). -/
theorem claim_c4_non_compact_total :
    ∀ nc : NonCompact,
      nc.into_response = ⟨200, nc.body⟩
      ∧ nc.body.head? = some 100
      ∧ nc.body.getLast? = some 101 := by
  intro nc
  refine ⟨rfl, rfl, ?_⟩
  show (encode (Bencode.dict _)).getLast? = some 101
  rw [encode]
  exact List.getLast?_concat _

/-- Claim C5: a failure of the byte-writing step is turned into the
distinct serialization-error value whose response is the bencoded
failure reason dictionary (no crash), while an empty peer list is a
success: the compact body of a zero-peer swarm is Ok, with peers and
peers6 as empty byte strings. -/
theorem claim_c5_serialization_error_response :
    ∀ (location err : String) (i im comp incomp : Nat),
      compactResponseOf location (Except.error err)
        = (errorFromCompact ⟨location, err⟩).into_response
      ∧ (errorFromCompact ⟨location, err⟩).into_response
        = ⟨200, encode (benMap [(strBytes "failure reason",
            .bytes (strBytes ("cannot write bytes: " ++ err ++ " in " ++ location)))])⟩
      ∧ Compact.body ⟨i, im, comp, incomp, []⟩
        = Except.ok (encode (benMap [
            (strBytes "complete", .int (Int.ofNat comp)),
            (strBytes "incomplete", .int (Int.ofNat incomp)),
            (strBytes "interval", .int (Int.ofNat i)),
            (strBytes "min interval", .int (Int.ofNat im)),
            (strBytes "peers", .bytes []),
            (strBytes "peers6", .bytes [])])) := by
  intro location err i im comp incomp
  exact ⟨rfl, rfl, rfl⟩

/-- Claim C6: for every compact response value, the body returns Ok (the
writer is an in-memory vector whose writes never fail), so the error
branch of the response conversion is unreachable and the response is
always a 200 with the body bytes. -/
theorem claim_c6_compact_body_ok :
    ∀ (c : Compact) (location : String), ∃ bs : Bytes,
      c.body = Except.ok bs ∧ c.into_response location = ⟨200, bs⟩ := by
  intro c location
  have hok : c.body = Except.ok (encode (benMap [
      (strBytes "complete", .int (Int.ofNat c.complete)),
      (strBytes "incomplete", .int (Int.ofNat c.incomplete)),
      (strBytes "interval", .int (Int.ofNat c.interval)),
      (strBytes "min interval", .int (Int.ofNat c.interval_min)),
      (strBytes "peers", .bytes (((c.peers.filter fun p => p.ip.isV4).map compactChunk).flatten)),
      (strBytes "peers6", .bytes (((c.peers.filter fun p => !p.ip.isV4).map compactChunk).flatten))])) := by
    simp [Compact.body, Compact.peersV4Bytes, Compact.peersV6Bytes,
      peersV4Loop_eq, peersV6Loop_eq, Bind.bind, Except.bind, Pure.pure, Except.pure]
  exact ⟨_, hok, by simp [Compact.into_response, hok, compactResponseOf]⟩

/-- Splitting a list by a predicate preserves the total length. -/
theorem length_filter_split (l : List PeerRecord) (f : PeerRecord → Bool) :
    (l.filter f).length + (l.filter fun x => !f x).length = l.length := by
  induction l with
  | nil => rfl
  | cons h t ih =>
    cases hf : f h <;> simp [List.filter_cons, hf] <;> omega

/-- The derived counters of an entry always split its peer set. -/
theorem seeders_add_leechers (e : Entry) : e.seeders + e.leechers = e.peers.length := by
  simpa [Entry.seeders, Entry.leechers] using length_filter_split e.peers (fun r => r.is_seeder)

/-- No single entry operation decrements the completed counter. -/
theorem completed_mono_op (e : Entry) (op : EntryOp) :
    e.completed_count ≤ (applyEntryOp e op).completed_count := by
  cases op with
  | upsert r =>
    simp only [applyEntryOp, Entry.upsert_peer]
    split <;> simp
  | remove pid => exact Nat.le_refl _
  | purge now ttl => exact Nat.le_refl _

/-- No sequence of entry operations decrements the completed counter. -/
theorem completed_mono (ops : List EntryOp) (e : Entry) :
    e.completed_count ≤ (applyEntryOps e ops).completed_count := by
  induction ops generalizing e with
  | nil => exact Nat.le_refl _
  | cons op ops ih =>
    exact Nat.le_trans (completed_mono_op e op) (ih (applyEntryOp e op))

/-- Claim C10: after any sequence of entry upserts, removals and purges,
seeders plus leechers equals the size of the peer set, and the completed
counter never decreases. -/
theorem claim_c10_entry_counters :
    ∀ (e : Entry) (ops : List EntryOp),
      (applyEntryOps e ops).seeders + (applyEntryOps e ops).leechers
        = (applyEntryOps e ops).peers.length
      ∧ e.completed_count ≤ (applyEntryOps e ops).completed_count := by
  intro e ops
  exact ⟨seeders_add_leechers _, completed_mono ops e⟩

/-- Claim C7: for every snapshot, requester present in the snapshot and
limit, the selection never exceeds the limit and never contains a record
with the peer id of the requester. -/
theorem claim_c7_select_peers_bounds :
    ∀ (s : SwarmSnapshot) (requester : Bytes) (limit : Nat),
      requester ∈ s.peers.map PeerRecord.peer_id →
      (select_peers s requester limit).length ≤ limit
      ∧ ∀ p ∈ select_peers s requester limit, p.peer_id ≠ requester := by
  intro s requester limit _
  constructor
  · simp only [select_peers]
    exact List.length_take_le _ _
  · intro p hp
    have hmem : p ∈ s.peers.filter fun q => !decide (q.peer_id = requester) :=
      List.mem_of_mem_take hp
    have := List.of_mem_filter hmem
    simpa using this

/-- Witness for claim C7: a two-peer snapshot whose first peer is the
requester, with limit one. -/
theorem claim_c7_select_peers_bounds_witness :
    ([1] ∈ ([sampleRecordA, sampleRecordB].map PeerRecord.peer_id))
    ∧ ((select_peers ⟨[sampleRecordA, sampleRecordB], 1, 1, 0⟩ [1] 1).length ≤ 1
      ∧ ∀ p ∈ select_peers ⟨[sampleRecordA, sampleRecordB], 1, 1, 0⟩ [1] 1, p.peer_id ≠ [1]) :=
  ⟨by decide, claim_c7_select_peers_bounds ⟨[sampleRecordA, sampleRecordB], 1, 1, 0⟩ [1] 1 (by decide)⟩

/-- Association lookup commutes with a per-value map. -/
theorem mapView_assocGet {α β : Type} (g : α → β) (m : List (Bytes × α)) (k : Bytes) :
    assocGet (m.map fun kv => (kv.1, g kv.2)) k = (assocGet m k).map g := by
  induction m with
  | nil => rfl
  | cons kv m ih =>
    by_cases hk : kv.1 = k
    · simp [assocGet, List.find?, hk]
    · simpa [assocGet, List.find?, hk] using ih

/-- Association update commutes with a per-value map. -/
theorem mapView_assocSet {α β : Type} (g : α → β) (m : List (Bytes × α)) (k : Bytes) (v : α) :
    (assocSet m k v).map (fun kv => (kv.1, g kv.2))
      = assocSet (m.map fun kv => (kv.1, g kv.2)) k (g v) := by
  induction m with
  | nil => rfl
  | cons kv m ih =>
    by_cases hk : kv.1 = k
    · simp [assocSet, hk]
    · simp [assocSet, hk, ih]

/-- A maintenance sweep commutes with stripping the inner locks. -/
theorem sweep_view (now ttl : Nat) (m : List (Bytes × LockedEntry)) :
    (((m.map fun kv =>
        (kv.1, (⟨kv.2.kind, kv.2.acquisitions + 1, (kv.2.entry.purge_stale now ttl).1⟩ : LockedEntry))).filter
        fun kv => !kv.2.entry.peers.isEmpty).map fun kv => (kv.1, kv.2.entry))
      = (((m.map fun kv => (kv.1, kv.2.entry)).map fun kv => (kv.1, (kv.2.purge_stale now ttl).1)).filter
        fun kv => !kv.2.peers.isEmpty) := by
  induction m with
  | nil => rfl
  | cons kv m ih =>
    by_cases hp : ((kv.2.entry.purge_stale now ttl).1).peers.isEmpty
    · simp [List.filter_cons, hp, ih]
    · simp [List.filter_cons, hp, ih]

/-- One operation under a fine-grained strategy simulates the same
operation under the coarse strategy, lock bookkeeping stripped. -/
theorem fine_coarse_step (f : FineRepo) (c : CoarseRepo) (hv : f.view = c.torrents) (op : RepoOp) :
    (f.apply op).view = (c.apply op).torrents := by
  have hget : ∀ k : Bytes, assocGet c.torrents k = (assocGet f.torrents k).map LockedEntry.entry := by
    intro k
    rw [← hv]
    simp only [FineRepo.view]
    exact mapView_assocGet LockedEntry.entry f.torrents k
  have hv2 : (f.torrents.map fun kv => (kv.1, kv.2.entry)) = c.torrents := by
    rw [← hv]
    simp only [FineRepo.view]
  cases op with
  | upsert ih r =>
    cases hle : assocGet f.torrents ih with
    | none =>
      have hc : assocGet c.torrents ih = Option.none := by rw [hget, hle]; rfl
      simp only [FineRepo.apply, CoarseRepo.apply, hle, hc, FineRepo.view, Option.getD]
      rw [mapView_assocSet LockedEntry.entry, hv2]
    | some le =>
      have hc : assocGet c.torrents ih = some le.entry := by rw [hget, hle]; rfl
      simp only [FineRepo.apply, CoarseRepo.apply, hle, hc, FineRepo.view, Option.getD]
      rw [mapView_assocSet LockedEntry.entry, hv2]
  | remove ih pid =>
    cases hle : assocGet f.torrents ih with
    | none =>
      have hc : assocGet c.torrents ih = Option.none := by rw [hget, hle]; rfl
      simp only [FineRepo.apply, CoarseRepo.apply, hle, hc]
      exact hv
    | some le =>
      have hc : assocGet c.torrents ih = some le.entry := by rw [hget, hle]; rfl
      simp only [FineRepo.apply, CoarseRepo.apply, hle, hc, FineRepo.view]
      rw [mapView_assocSet LockedEntry.entry, hv2]
  | sweep now ttl =>
    simp only [FineRepo.apply, CoarseRepo.apply, FineRepo.view]
    rw [← hv2]
    exact sweep_view now ttl f.torrents

/-- A sequential replay under a fine-grained strategy simulates the same
replay under the coarse strategy. -/
theorem replay_agree (ops : List RepoOp) (f : FineRepo) (c : CoarseRepo) (hv : f.view = c.torrents) :
    (ops.foldl FineRepo.apply f).view = (ops.foldl CoarseRepo.apply c).torrents := by
  induction ops generalizing f c with
  | nil => exact hv
  | cons op ops ih =>
    exact ih (f.apply op) (c.apply op) (fine_coarse_step f c hv op)

/-- Both fine-grained lock flavors replay to the coarse result. -/
theorem replay_eq_coarse (kind : LockKind) (ops : List RepoOp) :
    (ops.foldl FineRepo.apply ⟨kind, []⟩).view = (ops.foldl CoarseRepo.apply ⟨[]⟩).torrents :=
  replay_agree ops ⟨kind, []⟩ ⟨[]⟩ rfl

/-- Claim C9: replaying any sequence of logical repository operations
sequentially against the coarse-lock, fine-grained std-lock and
fine-grained tokio-lock strategies produces identical final snapshots. -/
theorem claim_c9_strategy_equivalence :
    ∀ ops : List RepoOp,
      replay .coarse ops = replay .fineStd ops ∧ replay .fineStd ops = replay .fineTokio ops := by
  intro ops
  constructor
  · exact (replay_eq_coarse .preemptive ops).symm
  · exact (replay_eq_coarse .preemptive ops).trans (replay_eq_coarse .cooperative ops).symm

/-- Upserting a record whose peer id is absent appends it. -/
theorem upsert_peers_fresh (e : Entry) (r : PeerRecord)
    (h : ∀ p ∈ e.peers, p.peer_id ≠ r.peer_id) :
    (e.upsert_peer r).peers = e.peers ++ [r] := by
  simp only [Entry.upsert_peer, upsertList]
  rw [if_neg]
  intro hany
  obtain ⟨p, hp, hpe⟩ := List.any_eq_true.mp hany
  exact h p hp (of_decide_eq_true hpe)

/-- Folding upserts of records with fresh, pairwise distinct peer ids
appends all of them. -/
theorem fold_upsert_fresh (l : List PeerRecord) (e : Entry)
    (hnodup : (l.map PeerRecord.peer_id).Nodup)
    (hdisj : ∀ r ∈ l, ∀ p ∈ e.peers, p.peer_id ≠ r.peer_id) :
    (l.foldl Entry.upsert_peer e).peers = e.peers ++ l := by
  induction l generalizing e with
  | nil => simp
  | cons r l ih =>
    have hfresh : (e.upsert_peer r).peers = e.peers ++ [r] :=
      upsert_peers_fresh e r (fun p hp => hdisj r (List.mem_cons_self r l) p hp)
    have hnd : (l.map PeerRecord.peer_id).Nodup := (List.nodup_cons.mp hnodup).2
    have hnotin : r.peer_id ∉ l.map PeerRecord.peer_id := (List.nodup_cons.mp hnodup).1
    have hdisj2 : ∀ q ∈ l, ∀ p ∈ (e.upsert_peer r).peers, p.peer_id ≠ q.peer_id := by
      intro q hq p hp
      rw [hfresh] at hp
      rcases List.mem_append.mp hp with hpe | hpr
      · exact hdisj q (List.mem_cons_of_mem r hq) p hpe
      · have hpr2 : p = r := by simpa using hpr
        subst hpr2
        intro hcontra
        exact hnotin (hcontra ▸ List.mem_map_of_mem PeerRecord.peer_id hq)
    calc (List.foldl Entry.upsert_peer e (r :: l)).peers
        = (List.foldl Entry.upsert_peer (e.upsert_peer r) l).peers := rfl
      _ = (e.upsert_peer r).peers ++ l := ih (e.upsert_peer r) hnd hdisj2
      _ = (e.peers ++ [r]) ++ l := by rw [hfresh]
      _ = e.peers ++ (r :: l) := by simp

/-- Coarse upserts against a single existing entry stay in that entry. -/
theorem coarse_upserts_single (rs : List PeerRecord) (ih : Bytes) (e : Entry) :
    (List.foldl CoarseRepo.apply ⟨[(ih, e)]⟩ (rs.map fun r => RepoOp.upsert ih r)).torrents
      = [(ih, rs.foldl Entry.upsert_peer e)] := by
  induction rs generalizing e with
  | nil => rfl
  | cons r rs ihh =>
    have hstep : CoarseRepo.apply ⟨[(ih, e)]⟩ (RepoOp.upsert ih r) = ⟨[(ih, e.upsert_peer r)]⟩ := by
      simp [CoarseRepo.apply, assocGet, assocSet, List.find?]
    simp only [List.map_cons, List.foldl_cons, hstep]
    exact ihh (e.upsert_peer r)

/-- Coarse upserts for one info-hash, starting from the empty repository,
reduce to the entry-level fold. -/
theorem coarse_upserts_from_empty (rs : List PeerRecord) (ih : Bytes) :
    ((assocGet (List.foldl CoarseRepo.apply ⟨[]⟩ (rs.map fun r => RepoOp.upsert ih r)).torrents
        ih).getD emptyEntry).peers
      = (rs.foldl Entry.upsert_peer emptyEntry).peers := by
  cases rs with
  | nil => rfl
  | cons r rs =>
    have hstep : CoarseRepo.apply ⟨[]⟩ (RepoOp.upsert ih r) = ⟨[(ih, emptyEntry.upsert_peer r)]⟩ := by
      simp [CoarseRepo.apply, assocGet, assocSet, List.find?]
    simp only [List.map_cons, List.foldl_cons, hstep, coarse_upserts_single]
    simp [assocGet, List.find?]

/-- Claim C8: for any permutation (interleaving of the atomic upserts) of
records with distinct peer ids, applied to one info-hash under any of the
three strategies, the final peer set of that swarm is exactly the set of
all upserted records, of full size: no update is lost. -/
theorem claim_c8_no_lost_updates :
    ∀ (strat : Strategy) (ih : Bytes) (records order : List PeerRecord),
      order.Perm records →
      (records.map PeerRecord.peer_id).Nodup →
      (((assocGet (replay strat (order.map fun r => RepoOp.upsert ih r)) ih).getD
          emptyEntry).peers).Perm records
      ∧ ((assocGet (replay strat (order.map fun r => RepoOp.upsert ih r)) ih).getD
          emptyEntry).peers.length = records.length := by
  intro strat ih records order hperm hnodup
  have hre : replay strat (order.map fun r => RepoOp.upsert ih r)
      = (List.foldl CoarseRepo.apply ⟨[]⟩ (order.map fun r => RepoOp.upsert ih r)).torrents := by
    cases strat with
    | coarse => rfl
    | fineStd => exact replay_eq_coarse .preemptive _
    | fineTokio => exact replay_eq_coarse .cooperative _
  have hnodup2 : (order.map PeerRecord.peer_id).Nodup :=
    ((hperm.map PeerRecord.peer_id).nodup_iff).mpr hnodup
  have hfold : (order.foldl Entry.upsert_peer emptyEntry).peers = order := by
    have := fold_upsert_fresh order emptyEntry hnodup2
      (fun r _ p hp => absurd hp (List.not_mem_nil p))
    simpa using this
  rw [hre, coarse_upserts_from_empty, hfold]
  exact ⟨hperm, hperm.length_eq⟩

/-- Witness for claim C8: two records with distinct peer ids upserted in
swapped order under the cooperative fine-grained strategy. -/
theorem claim_c8_no_lost_updates_witness :
    (([sampleRecordB, sampleRecordA].Perm [sampleRecordA, sampleRecordB])
      ∧ ([sampleRecordA, sampleRecordB].map PeerRecord.peer_id).Nodup)
    ∧ ((((assocGet (replay .fineTokio ([sampleRecordB, sampleRecordA].map
          fun r => RepoOp.upsert [7] r)) [7]).getD emptyEntry).peers).Perm
            [sampleRecordA, sampleRecordB]
      ∧ ((assocGet (replay .fineTokio ([sampleRecordB, sampleRecordA].map
          fun r => RepoOp.upsert [7] r)) [7]).getD emptyEntry).peers.length
            = [sampleRecordA, sampleRecordB].length) :=
  ⟨⟨by decide, by decide⟩,
    claim_c8_no_lost_updates .fineTokio [7] [sampleRecordA, sampleRecordB]
      [sampleRecordB, sampleRecordA] (by decide) (by decide)⟩

end Torrust
